import Mathlib

/-!
Formal model of `dependencyDiscoverer.cpp`.

The C++ program crawls C/yacc/lex sources for `#include "..."` directives,
building a dependency graph (`theTable`: file name → list of directly included
names), and then prints, for each command-line argument, the breadth-first
closure of its object file's dependencies (`printDependencies`).

Shallow embedding conventions:
  * `FILE` contents are modelled as lists of lines, each line a `List Char`
    (the characters `fgets` places in the buffer, terminator excluded).
  * `std::unordered_map<std::string, std::list<std::string>>` is modelled as an
    association list `Graph`; `unordered_map::insert` (which does not
    overwrite an existing key) is `insertIfAbsent`, and `operator[]`-style
    access that default-constructs a missing entry is `insertIfAbsent _ _ []`.
  * `std::unordered_set` (the `printed` set) is modelled as a `List String`
    used as a set; consing records insertion order.
  * `exit(-1)` / `return -1` with an `fprintf(stderr, ...)` message are
    modelled as `Except.error (message, -1)`.
  * The worker pool is modelled separately (for claim C10) as a small-step
    transition system over the semaphore, the shared queue and each worker's
    program counter.
-/

namespace DependencyDiscoverer

/-- C locale `isspace`: space, tab, newline, vertical tab, form feed,
carriage return (as used on the line buffer in `process`). -/
def isCSpace (c : Char) : Bool :=
  c == ' ' || c == '\t' || c == '\n' || c == '\x0b' || c == '\x0c' || c == '\r'

/-- The per-line scanner from `process` (lines 282–310 of the source):
skip leading whitespace, require the first 8 characters to be `#include`
(`strncmp(p, "#include", 8)`), skip whitespace, require a double quote, and
collect the characters up to the next double quote (or to the end of the
buffer, mirroring the `while (*p != '\0')` loop). Returns `none` when the
line does not match. -/
def scanLine (line : List Char) : Option String :=
  let p := line.dropWhile isCSpace
  if p.take 8 = "#include".toList then
    let q := (p.drop 8).dropWhile isCSpace
    match q with
    | c :: rest =>
        if c = '"' then some (String.mk (rest.takeWhile (fun c => c ≠ '"')))
        else none
    | [] => none
  else none

/-- The names appended to the caller's dependency list by one run of the
`fgets` loop in `process`, in line order: one entry per matching line,
duplicates preserved. -/
def processLines (lines : List (List Char)) : List String :=
  lines.filterMap scanLine

/-- Model of `theTable` (`std::unordered_map<std::string, std::list<std::string>>`)
as an association list. Keys are unique in every table the program builds,
since all insertions go through `insertIfAbsent`. -/
abbrev Graph := List (String × List String)

/-- First-match lookup; a missing key reads as the empty list (the value
`operator[]` would default-construct). -/
def lookupGraph (g : Graph) (n : String) : List String :=
  match g with
  | [] => []
  | (k, v) :: rest => if k == n then v else lookupGraph rest n

/-- Membership test for a key, modelling `theTable.find(name) != theTable.end()`. -/
def tableMem (g : Graph) (n : String) : Bool :=
  match g with
  | [] => false
  | (k, _) :: rest => k == n || tableMem rest n

/-- Model of `unordered_map::insert({k, v})`: inserts only when the key is
absent, never overwrites. -/
def insertIfAbsent (g : Graph) (k : String) (v : List String) : Graph :=
  if tableMem g k then g else g ++ [(k, v)]

/-- Append `dep` to the entry for `file` (the effect of `ll->push_back({name})`
where `ll` points at `theTable`'s list for `file`). Entries with other keys
are untouched; a missing key leaves the table unchanged. -/
def appendDep (g : Graph) (file dep : String) : Graph :=
  match g with
  | [] => []
  | (k, v) :: rest =>
      if k == file then (k, v ++ [dep]) :: appendDep rest file dep
      else (k, v) :: appendDep rest file dep

/-- The two components of shared crawl state: `theTable` and `workQ`. -/
structure CrawlState where
  table : Graph
  workQ : List String
deriving Repr, DecidableEq

/-- One matched include inside `process` (lines 311–323): append the name to
the scanned file's dependency list; if the name is not yet a key of the
table, insert it with an empty list and push it onto the work queue. -/
def handleInclude (file n : String) (st : CrawlState) : CrawlState :=
  let t := appendDep st.table file n
  if tableMem t n then { table := t, workQ := st.workQ }
  else { table := t ++ [(n, [])], workQ := st.workQ ++ [n] }

/-- The whole `fgets` loop of `process` over the opened file's lines. -/
def processFile (lines : List (List Char)) (file : String) (st : CrawlState) : CrawlState :=
  lines.foldl (fun st line =>
    match scanLine line with
    | none => st
    | some n => handleInclude file n st) st

/-- The inner `for` loop of `printDependencies` (lines 344–355) over one
file's dependency list: for each name not yet printed, print it, insert it
into `printed`, and append it to `toProcess`. Returns the updated
`(printed, toProcess, output)`. -/
def processDeps : List String → List String → List String → List String →
    List String × List String × List String
  | [], printed, toProcess, out => (printed, toProcess, out)
  | d :: rest, printed, toProcess, out =>
      if d ∈ printed then processDeps rest printed toProcess out
      else processDeps rest (d :: printed) (toProcess ++ [d]) (out ++ [d])

/-- The `while` loop of `printDependencies` (lines 330–357), with explicit
fuel: pop the front of `toProcess`, look its dependency list up in the
table, and run the inner loop. Returns the final `printed` list (insertion
order, most recent first) and the emitted names in emission order; `none`
means the fuel ran out before `toProcess` drained. -/
def printDependencies (g : Graph) :
    Nat → List String → List String → List String → Option (List String × List String)
  | 0, _, _, _ => none
  | Nat.succ fuel, printed, toProcess, out =>
      match toProcess with
      | [] => some (printed, out)
      | name :: rest =>
          let t := processDeps (lookupGraph g name) printed rest out
          printDependencies g fuel t.1 t.2.1 t.2.2

/-- All names occurring in dependency lists of the graph; its length bounds
the number of names the traversal can ever discover. -/
def depsUniverse (g : Graph) : List String :=
  (g.map (fun p => p.2)).flatten

/-- The spec's `flatten(root)` operation, as `main` (lines 448–466) performs
it: seed `printed` and `toProcess` with the root before the traversal
begins, then run `printDependencies`. The fuel is a crude upper bound that
is proved sufficient (`flatten_isSome`). -/
def flatten (g : Graph) (root : String) : Option (List String × List String) :=
  printDependencies g ((depsUniverse g).length + 2) [root] [root] []

/-- `dirName` (lines 243–249): append a trailing `/` when the last character
is not `/` (`s.back() != '/'`). -/
def dirName (s : String) : String :=
  if s.toList.getLast? = some '/' then s else s ++ "/"

/-- The `find(":")`/`substr` loop of `main` (lines 388–397): split a
character list at every `:`, keeping empty fields, with a final field
pushed after the last separator (so the empty string yields one empty
field). -/
def splitFields (l : List Char) : List (List Char) :=
  match l with
  | [] => [[]]
  | c :: rest =>
      if c = ':' then [] :: splitFields rest
      else
        match splitFields rest with
        | f :: fs => (c :: f) :: fs
        | [] => [[c]]

/-- The `dirs` vector assembled by `main` (lines 383–397): the current
directory first, then each `-I` argument (its `-I` prefix already stripped)
left to right, then the `:`-separated fields of `CPATH` left to right
(pushed raw, without `dirName`). -/
def buildDirs (iflags : List String) (cpath : Option String) : List String :=
  (dirName "./" :: iflags.map dirName) ++
    (match cpath with
     | none => []
     | some str => (splitFields str.toList).map String.mk)

/-- The file system visible to `fopen`, as a partial map from full path to
the file's lines; `none` models a path `fopen` fails on. -/
abbrev Contents := String → Option (List (List Char))

/-- `openFile` (lines 262–271): try `dirs[i] + file` in order and return the
first path that opens, together with the opened content; `none` when every
directory fails. -/
def openFile (contents : Contents) (dirs : List String) (file : String) :
    Option (String × List (List Char)) :=
  match dirs with
  | [] => none
  | d :: rest =>
      match contents (d ++ file) with
      | some c => some (d ++ file, c)
      | none => openFile contents rest file

/-- `process` (lines 274–327) at the granularity of whole files: open the
file via the search path (exiting with `Error opening <file>` and status
`-1` on failure, lines 278–281), then run the scanning loop. -/
def process (contents : Contents) (dirs : List String) (file : String)
    (st : CrawlState) : Except (String × Int) CrawlState :=
  match openFile contents dirs file with
  | none => Except.error ("Error opening " ++ file, -1)
  | some pc => Except.ok (processFile pc.2 file st)

/-- `parseFile` (lines 251–259): split a name at its last dot into root and
extension; a name without a dot has extension `""`. -/
def parseFile (file : String) : String × String :=
  let l := file.toList
  if '.' ∈ l then
    let extRev := l.reverse.takeWhile (fun c => c ≠ '.')
    (String.mk ((l.reverse.drop (extRev.length + 1)).reverse), String.mk extRev.reverse)
  else (file, "")

/-- The object name of a file argument: root with extension replaced by `.o`. -/
def objOf (file : String) : String :=
  (parseFile file).1 ++ ".o"

/-- The argument loop of `main` (lines 401–419): for each file argument,
reject any extension other than `c`, `y`, `l` with the
`Illegal extension` error and status `-1`; otherwise insert
`file.o ↦ [file]` and `file ↦ []` (both `unordered_map::insert`, so an
existing key is left untouched) and append the file to the work queue. -/
def seedArgs : List String → CrawlState → Except (String × Int) CrawlState
  | [], st => Except.ok st
  | a :: rest, st =>
      let pr := parseFile a
      if pr.2 ≠ "c" ∧ pr.2 ≠ "y" ∧ pr.2 ≠ "l" then
        Except.error ("Illegal extension: " ++ pr.2 ++ " - must be .c, .y or .l", -1)
      else
        seedArgs rest
          { table := insertIfAbsent (insertIfAbsent st.table (pr.1 ++ ".o") [a]) a [],
            workQ := st.workQ ++ [a] }

/-- The crawl phase (worker loop, lines 422–438), sequentialized: pop the
front of the work queue, materialize its table entry
(`theTable.getValue(filename)` default-constructs a missing entry) and run
`process` on it; stop when the queue is empty. The spec requires the final
graph to be independent of the number of workers, so the one-worker
schedule is the canonical semantics. `fuel` bounds the number of
iterations; an exhausted fuel returns the state reached so far. -/
def crawl (contents : Contents) (dirs : List String) :
    Nat → CrawlState → Except (String × Int) CrawlState
  | 0, st => Except.ok st
  | Nat.succ fuel, st =>
      match st.workQ with
      | [] => Except.ok st
      | f :: rest =>
          match process contents dirs f
              { table := insertIfAbsent st.table f [], workQ := rest } with
          | Except.error e => Except.error e
          | Except.ok st2 => crawl contents dirs fuel st2

/-- The whole program (`main`, minus thread management): assemble the search
path, seed the table and work queue from the arguments, crawl, then emit
one `(object name, flattened dependency list)` pair per argument in
command-line order. Any fatal error short-circuits with its message and the
non-zero status, producing no output. -/
def runProgram (contents : Contents) (iflags : List String) (cpath : Option String)
    (fuel : Nat) (args : List String) :
    Except (String × Int) (List (String × List String)) :=
  let dirs := buildDirs iflags cpath
  match seedArgs args { table := [], workQ := [] } with
  | Except.error e => Except.error e
  | Except.ok st =>
      match crawl contents dirs fuel st with
      | Except.error e => Except.error e
      | Except.ok stF =>
          Except.ok (args.map (fun a =>
            (objOf a,
             match flatten stF.table (objOf a) with
             | some r => r.2
             | none => [])))

/-- Model of `std::stoi` (C locale): skip whitespace, accept one optional
sign, then require at least one decimal digit; `none` models the
`std::invalid_argument` exception thrown when no digit is found (which the
program does not catch). The `out_of_range` overflow exception is outside
this model (`Int` is unbounded). -/
def stoi (s : String) : Option Int :=
  let l := s.toList.dropWhile isCSpace
  let sl : Int × List Char :=
    match l with
    | '-' :: r => (-1, r)
    | '+' :: r => (1, r)
    | _ => (1, l)
  let digits := sl.2.takeWhile Char.isDigit
  if digits = [] then none
  else some (sl.1 * (digits.foldl (fun acc c => acc * 10 + (c.toNat - 48)) 0 : Nat))

/-- The worker-count computation of `main` (lines 361–368): `CRAWLER_THREADS`
absent (`none`) gives the default 2; otherwise the value is fed to
`std::stoi`, whose uncaught exception on invalid text (`stoi _ = none`)
terminates the program. -/
def crawlerThreadCount (env : Option String) : Option Int :=
  match env with
  | none => some 2
  | some s => stoi s

/-- `QueueSafe::pop_front` (lines 153–162): `none` models the `q.empty()`
branch, which evaluates `std::string(NULL)` — undefined behaviour the
program must never reach. -/
def pop_front (q : List String) : Option (String × List String) :=
  match q with
  | [] => none
  | x :: rest => some (x, rest)

/-- Program counter of one worker thread (the lambda of lines 423–437),
split at its interactions with the `threadlock` semaphore and `workQ`:
`acquire` = about to run `thread->wait()`; `test` = holding the semaphore,
about to evaluate `workQ.size() > 0`; `popping` = holding, observed a
non-empty size, about to call `workQ.pop_front()`; `release` = holding,
popped, about to `thread->signal()` and then run `process`; `exiting` =
holding, observed an empty queue, about to signal and break; `working` =
not holding, inside `process` (whose discoveries push onto `workQ`);
`done` = retired. `nullString` marks the unreachable empty-pop branch of
`pop_front`. -/
inductive WorkerPc where
  | acquire
  | test
  | popping
  | release
  | exiting
  | working
  | done
  | nullString
deriving Repr, DecidableEq

/-- Shared state of the crawler pool: the `threadlock` binary semaphore's
value, the shared `workQ`, and each worker's program counter. -/
structure PoolState where
  sem : Nat
  q : List String
  pcs : List WorkerPc
deriving Repr, DecidableEq

/-- Program counters at which a worker holds the `threadlock` semaphore
(between its `wait()` and the matching `signal()`). -/
def holdsLock : WorkerPc → Bool
  | WorkerPc.test => true
  | WorkerPc.popping => true
  | WorkerPc.release => true
  | WorkerPc.exiting => true
  | _ => false

/-- Interleaving semantics of the pool. Each constructor is one atomic
action of worker `i`: semaphore acquisition (`wait` returns only when the
value is positive, decrementing it), the size test, the pop (split into
the two branches of `pop_front`), the semaphore release (`signal` returns
only when the value is 0, incrementing it), and, while in `process`, an
arbitrary number of `workQ.push_back` actions (each atomic under the
queue's internal mutex) before looping back to `acquire`. -/
inductive PoolStep : PoolState → PoolState → Prop where
  | acquireStep (i : Nat) (q : List String) (pcs : List WorkerPc) :
      pcs.get? i = some WorkerPc.acquire →
      PoolStep ⟨1, q, pcs⟩ ⟨0, q, pcs.set i WorkerPc.test⟩
  | testPos (i : Nat) (sem : Nat) (q : List String) (pcs : List WorkerPc) :
      pcs.get? i = some WorkerPc.test → q ≠ [] →
      PoolStep ⟨sem, q, pcs⟩ ⟨sem, q, pcs.set i WorkerPc.popping⟩
  | testEmpty (i : Nat) (sem : Nat) (pcs : List WorkerPc) :
      pcs.get? i = some WorkerPc.test →
      PoolStep ⟨sem, [], pcs⟩ ⟨sem, [], pcs.set i WorkerPc.exiting⟩
  | popOk (i : Nat) (sem : Nat) (q rest : List String) (x : String)
      (pcs : List WorkerPc) :
      pcs.get? i = some WorkerPc.popping → pop_front q = some (x, rest) →
      PoolStep ⟨sem, q, pcs⟩ ⟨sem, rest, pcs.set i WorkerPc.release⟩
  | popNull (i : Nat) (sem : Nat) (q : List String) (pcs : List WorkerPc) :
      pcs.get? i = some WorkerPc.popping → pop_front q = none →
      PoolStep ⟨sem, q, pcs⟩ ⟨sem, q, pcs.set i WorkerPc.nullString⟩
  | releaseStep (i : Nat) (q : List String) (pcs : List WorkerPc) :
      pcs.get? i = some WorkerPc.release →
      PoolStep ⟨0, q, pcs⟩ ⟨1, q, pcs.set i WorkerPc.working⟩
  | exitStep (i : Nat) (q : List String) (pcs : List WorkerPc) :
      pcs.get? i = some WorkerPc.exiting →
      PoolStep ⟨0, q, pcs⟩ ⟨1, q, pcs.set i WorkerPc.done⟩
  | pushStep (i : Nat) (sem : Nat) (q : List String) (x : String)
      (pcs : List WorkerPc) :
      pcs.get? i = some WorkerPc.working →
      PoolStep ⟨sem, q, pcs⟩ ⟨sem, q ++ [x], pcs⟩
  | loopStep (i : Nat) (sem : Nat) (q : List String) (pcs : List WorkerPc) :
      pcs.get? i = some WorkerPc.working →
      PoolStep ⟨sem, q, pcs⟩ ⟨sem, q, pcs.set i WorkerPc.acquire⟩

/-- The state right after `main` starts the pool (lines 422–438): the
semaphore at its initial value 1, the queue holding whatever `main`'s
argument loop enqueued, and every worker at the top of its loop. -/
def poolInit (n : Nat) (q0 : List String) : PoolState :=
  ⟨1, q0, List.replicate n WorkerPc.acquire⟩

/-- States the pool can reach from the initial state, under any interleaving. -/
def PoolReachable (n : Nat) (q0 : List String) (s : PoolState) : Prop :=
  Relation.ReflTransGen PoolStep (poolInit n q0) s

/-- The names the inner loop of `printDependencies` actually emits out of one
dependency list: the not-yet-printed ones, first occurrence only (later
occurrences see the name already inserted into `printed`). -/
def newDeps : List String → List String → List String
  | [], _ => []
  | d :: rest, printed =>
      if d ∈ printed then newDeps rest printed
      else d :: newDeps rest (d :: printed)

/-- Reachability along the dependency graph: `Reaches g x y` holds when `y`
can be reached from `x` by following zero or more direct-dependency edges
(`y ∈ lookupGraph g x`-steps). -/
inductive Reaches (g : Graph) : String → String → Prop where
  | refl (x : String) : Reaches g x x
  | head {x y z : String} : y ∈ lookupGraph g x → Reaches g y z → Reaches g x z

/-- Reachability from any element of a pending list. -/
def ReachFrom (g : Graph) (tp : List String) (x : String) : Prop :=
  ∃ y ∈ tp, Reaches g y x

/-- Termination measure for the `printDependencies` loop: names of the
universe not yet printed, plus the pending list's length. Every loop
iteration decreases it by exactly one. -/
def phi (g : Graph) (printed tp : List String) : Nat :=
  ((depsUniverse g).toFinset \ printed.toFinset).card + tp.length

/-- Invariant of the crawler pool: the semaphore value and the number of
workers holding it always sum to 1 (mutual exclusion); any worker about to
pop has a non-empty queue; and no worker has entered the empty-pop
(`std::string(NULL)`) branch. -/
def PoolInv (s : PoolState) : Prop :=
  s.sem + s.pcs.countP (fun pc => holdsLock pc) = 1 ∧
  (∀ i, s.pcs.get? i = some WorkerPc.popping → s.q ≠ []) ∧
  (∀ i, s.pcs.get? i ≠ some WorkerPc.nullString)

/-! Lemmas about the inner loop of `printDependencies`. -/

lemma newDeps_mem : ∀ (deps printed : List String) (x : String),
    x ∈ newDeps deps printed → x ∈ deps ∧ x ∉ printed := by
  intro deps
  induction deps with
  | nil => intro printed x h; simp [newDeps] at h
  | cons d rest ih =>
      intro printed x h
      by_cases hd : d ∈ printed
      · simp only [newDeps, if_pos hd] at h
        rcases ih printed x h with ⟨h1, h2⟩
        exact ⟨List.mem_cons_of_mem _ h1, h2⟩
      · simp only [newDeps, if_neg hd] at h
        rcases List.mem_cons.mp h with rfl | hm
        · exact ⟨List.mem_cons_self _ _, hd⟩
        · rcases ih (d :: printed) x hm with ⟨h1, h2⟩
          exact ⟨List.mem_cons_of_mem _ h1, fun hc => h2 (List.mem_cons_of_mem _ hc)⟩

lemma newDeps_complete : ∀ (deps printed : List String) (x : String),
    x ∈ deps → x ∈ newDeps deps printed ∨ x ∈ printed := by
  intro deps
  induction deps with
  | nil => intro printed x h; simp at h
  | cons d rest ih =>
      intro printed x h
      by_cases hd : d ∈ printed
      · simp only [newDeps, if_pos hd]
        rcases List.mem_cons.mp h with rfl | hm
        · exact Or.inr hd
        · exact ih printed x hm
      · simp only [newDeps, if_neg hd]
        rcases List.mem_cons.mp h with rfl | hm
        · exact Or.inl (List.mem_cons_self _ _)
        · rcases ih (d :: printed) x hm with h1 | h1
          · exact Or.inl (List.mem_cons_of_mem _ h1)
          · rcases List.mem_cons.mp h1 with rfl | h2
            · exact Or.inl (List.mem_cons_self _ _)
            · exact Or.inr h2

lemma newDeps_nodup : ∀ (deps printed : List String), (newDeps deps printed).Nodup := by
  intro deps
  induction deps with
  | nil => intro printed; simp [newDeps]
  | cons d rest ih =>
      intro printed
      by_cases hd : d ∈ printed
      · simpa only [newDeps, if_pos hd] using ih printed
      · simp only [newDeps, if_neg hd]
        refine List.nodup_cons.mpr ⟨fun hc => ?_, ih (d :: printed)⟩
        exact (newDeps_mem _ _ _ hc).2 (List.mem_cons_self _ _)

lemma processDeps_eq : ∀ (deps printed tp out : List String),
    processDeps deps printed tp out =
      ((newDeps deps printed).reverse ++ printed,
       tp ++ newDeps deps printed,
       out ++ newDeps deps printed) := by
  intro deps
  induction deps with
  | nil => intro printed tp out; simp [processDeps, newDeps]
  | cons d rest ih =>
      intro printed tp out
      by_cases hd : d ∈ printed
      · simp only [processDeps, newDeps, if_pos hd]
        exact ih printed tp out
      · simp only [processDeps, newDeps, if_neg hd]
        rw [ih (d :: printed) (tp ++ [d]) (out ++ [d])]
        simp [List.append_assoc]

lemma lookupGraph_sub_depsUniverse :
    ∀ (g : Graph) (n x : String), x ∈ lookupGraph g n → x ∈ depsUniverse g := by
  intro g
  induction g with
  | nil => intro n x h; simp [lookupGraph] at h
  | cons p rest ih =>
      intro n x h
      obtain ⟨k, v⟩ := p
      simp only [depsUniverse, List.map_cons, List.flatten_cons]
      simp only [lookupGraph] at h
      by_cases hk : (k == n) = true
      · rw [if_pos hk] at h
        exact List.mem_append_left _ h
      · rw [if_neg hk] at h
        exact List.mem_append_right _ (ih n x h)

/-! Termination of the `printDependencies` loop (claim C3): each iteration
pops one pending name and appends only names it freshly inserts into
`printed`, so `phi` strictly decreases. -/

lemma printDependencies_total :
    ∀ (fuel : Nat) (g : Graph) (printed tp out : List String),
    phi g printed tp < fuel →
    ∃ r, printDependencies g fuel printed tp out = some r := by
  intro fuel
  induction fuel with
  | zero => intro g printed tp out h; exact absurd h (Nat.not_lt_zero _)
  | succ fuel ih =>
      intro g printed tp out h
      match tp with
      | [] => exact ⟨(printed, out), rfl⟩
      | name :: rest =>
          have hloop : printDependencies g (Nat.succ fuel) printed (name :: rest) out =
              printDependencies g fuel
                ((newDeps (lookupGraph g name) printed).reverse ++ printed)
                (rest ++ newDeps (lookupGraph g name) printed)
                (out ++ newDeps (lookupGraph g name) printed) := by
            simp only [printDependencies, processDeps_eq]
          rw [hloop]
          apply ih
          -- the measure decreases by exactly one
          set deps := lookupGraph g name with hdeps
          set new := newDeps deps printed with hnew
          have hsub : new.toFinset ⊆ (depsUniverse g).toFinset \ printed.toFinset := by
            intro x hx
            rw [List.mem_toFinset] at hx
            rcases newDeps_mem deps printed x hx with ⟨h1, h2⟩
            rw [Finset.mem_sdiff, List.mem_toFinset, List.mem_toFinset]
            exact ⟨lookupGraph_sub_depsUniverse g name x h1, h2⟩
          have hset : (depsUniverse g).toFinset \ (new.reverse ++ printed).toFinset =
              ((depsUniverse g).toFinset \ printed.toFinset) \ new.toFinset := by
            ext a
            simp only [Finset.mem_sdiff, List.mem_toFinset, List.mem_append,
              List.mem_reverse]
            tauto
          have hcard : ((depsUniverse g).toFinset \ (new.reverse ++ printed).toFinset).card =
              ((depsUniverse g).toFinset \ printed.toFinset).card - new.length := by
            rw [hset, Finset.card_sdiff hsub, List.toFinset_card_of_nodup (newDeps_nodup _ _)]
          have hle : new.length ≤ ((depsUniverse g).toFinset \ printed.toFinset).card := by
            rw [← List.toFinset_card_of_nodup (newDeps_nodup deps printed)]
            exact Finset.card_le_card hsub
          simp only [phi, hcard, List.length_append] at *
          simp only [phi, List.length_cons] at h
          omega

/-- Sufficient fuel for `flatten`: the loop always drains `toProcess`. -/
lemma flatten_isSome (g : Graph) (root : String) :
    ∃ r, flatten g root = some r := by
  apply printDependencies_total
  have h1 : ((depsUniverse g).toFinset \ [root].toFinset).card ≤
      (depsUniverse g).toFinset.card :=
    Finset.card_le_card (Finset.sdiff_subset)
  have h2 : (depsUniverse g).toFinset.card ≤ (depsUniverse g).length :=
    List.toFinset_card_le _
  simp only [phi, List.length_cons, List.length_nil]
  omega

/-! Characterization of the `printDependencies` traversal (claim C1). -/

lemma reaches_crossing {g : Graph} {printed : List String} :
    ∀ {y x : String}, Reaches g y x → y ∈ printed → x ∉ printed →
    ∃ a b, a ∈ printed ∧ b ∈ lookupGraph g a ∧ b ∉ printed ∧ Reaches g b x := by
  intro y x h
  induction h with
  | refl w => intro hy hx; exact absurd hy hx
  | @head p m z hstep _ ih =>
      intro hy hx
      by_cases hm : m ∈ printed
      · exact ih hm hx
      · exact ⟨p, m, hy, hstep, hm, by assumption⟩

lemma printDependencies_spec :
    ∀ (fuel : Nat) (g : Graph) (printed tp out pf res : List String),
    printDependencies g fuel printed tp out = some (pf, res) →
    (∀ x ∈ tp, x ∈ printed) →
    (∀ z ∈ printed, z ∈ tp ∨ ∀ w ∈ lookupGraph g z, w ∈ printed) →
    ∃ delta, res = out ++ delta ∧ pf = delta.reverse ++ printed ∧ delta.Nodup ∧
      (∀ x, x ∈ delta ↔ (ReachFrom g tp x ∧ x ∉ printed)) := by
  intro fuel
  induction fuel with
  | zero => intro g printed tp out pf res h; simp [printDependencies] at h
  | succ fuel ih =>
      intro g printed tp out pf res h hsub hCI
      cases tp with
      | nil =>
          simp only [printDependencies, Option.some.injEq, Prod.mk.injEq] at h
          obtain ⟨rfl, rfl⟩ := h
          refine ⟨[], by simp, by simp, List.nodup_nil, fun x => ?_⟩
          simp [ReachFrom]
      | cons name rest =>
          simp only [printDependencies, processDeps_eq] at h
          set deps := lookupGraph g name with hdepsdef
          set new := newDeps deps printed with hnewdef
          have hsub' : ∀ x ∈ rest ++ new, x ∈ new.reverse ++ printed := by
            intro x hx
            rcases List.mem_append.mp hx with hx | hx
            · exact List.mem_append_right _ (hsub x (List.mem_cons_of_mem _ hx))
            · exact List.mem_append_left _ (List.mem_reverse.mpr hx)
          have hCI' : ∀ z ∈ new.reverse ++ printed,
              z ∈ rest ++ new ∨ ∀ w ∈ lookupGraph g z, w ∈ new.reverse ++ printed := by
            intro z hz
            rcases List.mem_append.mp hz with hz | hz
            · exact Or.inl (List.mem_append_right _ (List.mem_reverse.mp hz))
            · rcases hCI z hz with hz2 | hz2
              · rcases List.mem_cons.mp hz2 with rfl | hz3
                · refine Or.inr fun w hw => ?_
                  rcases newDeps_complete deps printed w hw with h1 | h1
                  · exact List.mem_append_left _ (List.mem_reverse.mpr h1)
                  · exact List.mem_append_right _ h1
                · exact Or.inl (List.mem_append_left _ hz3)
              · exact Or.inr fun w hw => List.mem_append_right _ (hz2 w hw)
          obtain ⟨delta', hres, hpf, hnodup, hmem⟩ :=
            ih g (new.reverse ++ printed) (rest ++ new) (out ++ new) pf res h hsub' hCI'
          refine ⟨new ++ delta', ?_, ?_, ?_, fun x => ⟨fun hx => ?_, fun hx => ?_⟩⟩
          · rw [hres, List.append_assoc]
          · rw [hpf, List.reverse_append, List.append_assoc]
          · refine List.Nodup.append (newDeps_nodup _ _) hnodup ?_
            intro a ha hd
            exact ((hmem a).mp hd).2 (List.mem_append_left _ (List.mem_reverse.mpr ha))
          -- forward direction of the membership characterization
          · rcases List.mem_append.mp hx with hx | hx
            · rcases newDeps_mem deps printed x hx with ⟨h1, h2⟩
              exact ⟨⟨name, List.mem_cons_self _ _, Reaches.head h1 (Reaches.refl x)⟩, h2⟩
            · rcases (hmem x).mp hx with ⟨⟨y, hy, hr⟩, hnp⟩
              have hxp : x ∉ printed := fun hc => hnp (List.mem_append_right _ hc)
              rcases List.mem_append.mp hy with hy | hy
              · exact ⟨⟨y, List.mem_cons_of_mem _ hy, hr⟩, hxp⟩
              · rcases newDeps_mem deps printed y hy with ⟨h1, _⟩
                exact ⟨⟨name, List.mem_cons_self _ _, Reaches.head h1 hr⟩, hxp⟩
          -- backward direction
          · rcases hx with ⟨⟨y, hy, hr⟩, hxp⟩
            have hyp : y ∈ printed := hsub y hy
            obtain ⟨a, b, hap, hb, hbp, hbx⟩ := reaches_crossing hr hyp hxp
            have hrfx : ReachFrom g (rest ++ new) x := by
              rcases hCI a hap with ha2 | ha2
              · rcases List.mem_cons.mp ha2 with rfl | ha3
                · have hbnew : b ∈ new := by
                    rcases newDeps_complete deps printed b hb with h1 | h1
                    · exact h1
                    · exact absurd h1 hbp
                  exact ⟨b, List.mem_append_right _ hbnew, hbx⟩
                · exact ⟨a, List.mem_append_left _ ha3, Reaches.head hb hbx⟩
              · exact absurd (ha2 b hb) hbp
            by_cases hxnew : x ∈ new
            · exact List.mem_append_left _ hxnew
            · refine List.mem_append_right _ ((hmem x).mpr ⟨hrfx, fun hc => ?_⟩)
              rcases List.mem_append.mp hc with hc | hc
              · exact hxnew (List.mem_reverse.mp hc)
              · exact hxp hc

/-- C1: for every root object name, the `flatten`/`printDependencies`
operation emits each distinct reachable file name exactly once per root
(`out.Nodup` together with the membership characterization), in
first-discovery order (the emission sequence equals the insertion order of
the printed set: the final printed set is `out.reverse ++ [root]`), and it
never emits the root's own name — the root is pre-inserted into the
printed set before the traversal begins. -/
theorem claim_c1_flatten_bfs (g : Graph) (root : String) (pf out : List String)
    (h : flatten g root = some (pf, out)) :
    out.Nodup ∧ root ∉ out ∧
    (∀ x, x ∈ out ↔ (Reaches g root x ∧ x ≠ root)) ∧
    pf = out.reverse ++ [root] := by
  obtain ⟨delta, hres, hpf, hnodup, hmem⟩ :=
    printDependencies_spec _ g [root] [root] [] pf out h
      (fun x hx => hx) (fun z hz => Or.inl hz)
  simp only [List.nil_append] at hres
  subst hres
  have hchar : ∀ x, x ∈ out ↔ (Reaches g root x ∧ x ≠ root) := by
    intro x
    rw [hmem x]
    constructor
    · rintro ⟨⟨y, hy, hr⟩, hnp⟩
      rcases List.mem_singleton.mp hy with rfl
      exact ⟨hr, fun hc => hnp (by simp [hc])⟩
    · rintro ⟨hr, hne⟩
      exact ⟨⟨root, List.mem_singleton_self _, hr⟩, by simp [hne]⟩
  refine ⟨hnodup, fun hc => ?_, hchar, hpf⟩
  exact ((hchar root).mp hc).2 rfl

/-- Witness for C1 on a concrete cyclic graph: the pre-seeded graph for
`foo.c` whose headers include each other. -/
theorem claim_c1_witness :
    flatten [("foo.o", ["foo.c"]), ("foo.c", ["a.h", "b.h"]),
             ("a.h", ["b.h"]), ("b.h", ["a.h"])] "foo.o"
      = some (["b.h", "a.h", "foo.c", "foo.o"], ["foo.c", "a.h", "b.h"]) ∧
    ((["foo.c", "a.h", "b.h"] : List String).Nodup ∧
     "foo.o" ∉ (["foo.c", "a.h", "b.h"] : List String) ∧
     (∀ x, x ∈ (["foo.c", "a.h", "b.h"] : List String) ↔
        (Reaches [("foo.o", ["foo.c"]), ("foo.c", ["a.h", "b.h"]),
                  ("a.h", ["b.h"]), ("b.h", ["a.h"])] "foo.o" x ∧ x ≠ "foo.o")) ∧
     (["b.h", "a.h", "foo.c", "foo.o"] : List String) =
       (["foo.c", "a.h", "b.h"] : List String).reverse ++ ["foo.o"]) := by
  have hflat : flatten [("foo.o", ["foo.c"]), ("foo.c", ["a.h", "b.h"]),
      ("a.h", ["b.h"]), ("b.h", ["a.h"])] "foo.o"
      = some (["b.h", "a.h", "foo.c", "foo.o"], ["foo.c", "a.h", "b.h"]) := by decide
  exact ⟨hflat, claim_c1_flatten_bfs _ _ _ _ hflat⟩

/-- C3: the `printDependencies` traversal terminates on every dependency
graph, cyclic ones included: `flatten` (which runs the loop with the fuel
bound proved sufficient) always drains its pending list and returns a
result. -/
theorem claim_c3_flatten_terminates (g : Graph) (root : String) :
    ∃ r, flatten g root = some r :=
  flatten_isSome g root

/-! Association-list lemmas for the crawl table. -/

lemma tableMem_append (t1 t2 : Graph) (k : String) :
    tableMem (t1 ++ t2) k = (tableMem t1 k || tableMem t2 k) := by
  induction t1 with
  | nil => simp [tableMem]
  | cons p rest ih =>
      obtain ⟨a, v⟩ := p
      simp [tableMem, ih, Bool.or_assoc]

lemma lookup_append_of_mem {t1 : Graph} {k : String} (t2 : Graph)
    (h : tableMem t1 k = true) :
    lookupGraph (t1 ++ t2) k = lookupGraph t1 k := by
  induction t1 with
  | nil => simp [tableMem] at h
  | cons p rest ih =>
      obtain ⟨a, v⟩ := p
      simp only [tableMem, Bool.or_eq_true] at h
      by_cases ha : (a == k) = true
      · simp [lookupGraph, ha]
      · have h2 : tableMem rest k = true := by
          rcases h with h | h
          · exact absurd h ha
          · exact h
        simp [lookupGraph, ha, ih h2]

lemma tableMem_appendDep (g : Graph) (f d k : String) :
    tableMem (appendDep g f d) k = tableMem g k := by
  induction g with
  | nil => simp [appendDep]
  | cons p rest ih =>
      obtain ⟨a, v⟩ := p
      by_cases ha : (a == f) = true
      · simp [appendDep, ha, tableMem, ih]
      · simp [appendDep, ha, tableMem, ih]

lemma lookup_appendDep_self (g : Graph) (f d : String) (h : tableMem g f = true) :
    lookupGraph (appendDep g f d) f = lookupGraph g f ++ [d] := by
  induction g with
  | nil => simp [tableMem] at h
  | cons p rest ih =>
      obtain ⟨a, v⟩ := p
      by_cases ha : (a == f) = true
      · simp [appendDep, ha, lookupGraph]
      · simp only [tableMem, Bool.or_eq_true] at h
        have h2 : tableMem rest f = true := by
          rcases h with h | h
          · exact absurd h ha
          · exact h
        simp [appendDep, ha, lookupGraph, ih h2]

lemma handleInclude_lookup (f n : String) (st : CrawlState)
    (h : tableMem st.table f = true) :
    lookupGraph (handleInclude f n st).table f = lookupGraph st.table f ++ [n] ∧
    tableMem (handleInclude f n st).table f = true := by
  have hmem : tableMem (appendDep st.table f n) f = true := by
    rw [tableMem_appendDep]; exact h
  by_cases hm : tableMem (appendDep st.table f n) n = true
  · simp only [handleInclude, hm, if_true]
    exact ⟨lookup_appendDep_self _ _ _ h, hmem⟩
  · simp only [handleInclude, hm, if_false, Bool.false_eq_true]
    refine ⟨?_, ?_⟩
    · rw [lookup_append_of_mem _ hmem]
      exact lookup_appendDep_self _ _ _ h
    · rw [tableMem_append, hmem, Bool.true_or]

lemma processFile_lookup (file : String) :
    ∀ (lines : List (List Char)) (st : CrawlState),
    tableMem st.table file = true →
    lookupGraph (processFile lines file st).table file =
      lookupGraph st.table file ++ processLines lines := by
  intro lines
  induction lines with
  | nil => intro st h; simp [processFile, processLines]
  | cons l rest ih =>
      intro st h
      cases hsl : scanLine l with
      | none =>
          simp only [processFile, List.foldl_cons, hsl]
          simpa [processLines, List.filterMap_cons, hsl] using ih st h
      | some n =>
          obtain ⟨hlk, hmm⟩ := handleInclude_lookup file n st h
          simp only [processFile, List.foldl_cons, hsl]
          have := ih (handleInclude file n st) hmm
          simp only [processFile] at this
          rw [this, hlk]
          simp [processLines, List.filterMap_cons, hsl]

lemma processLines_count (lines : List (List Char)) (name : String) :
    (processLines lines).count name =
      lines.countP (fun l => scanLine l == some name) := by
  induction lines with
  | nil => simp [processLines]
  | cons l rest ih =>
      cases hsl : scanLine l with
      | none =>
          simp only [processLines] at ih
          simp [processLines, List.filterMap_cons, hsl, List.countP_cons, ih]
      | some m =>
          simp only [processLines, List.filterMap_cons, hsl, List.countP_cons]
          simp only [processLines] at ih
          by_cases hm : (m == name) = true
          · simp [List.count_cons, hm, ih]
          · simp [List.count_cons, hm, ih]

/-- C2: multiple include lines naming the same file are each appended to the
scanned file's graph entry (the entry grows by exactly the scan's match
list, holding the name once per matching line), while `flatten` emits any
name at most once per root. -/
theorem claim_c2_duplicates (lines : List (List Char)) (file name : String)
    (st : CrawlState) (g : Graph) (root : String) (pf out : List String)
    (hmem : tableMem st.table file = true)
    (hf : flatten g root = some (pf, out)) :
    lookupGraph (processFile lines file st).table file =
      lookupGraph st.table file ++ processLines lines ∧
    (processLines lines).count name =
      lines.countP (fun l => scanLine l == some name) ∧
    out.count name ≤ 1 := by
  obtain ⟨delta, hres, _, hnodup, _⟩ :=
    printDependencies_spec _ g [root] [root] [] pf out hf
      (fun x hx => hx) (fun z hz => Or.inl hz)
  simp only [List.nil_append] at hres
  subst hres
  exact ⟨processFile_lookup file lines st hmem, processLines_count lines name,
    List.nodup_iff_count_le_one.mp hnodup name⟩

/-- Witness for C2: `foo.c` contains `#include "a.h"` twice; its graph entry
gains `a.h` twice, yet the flattened output of `foo.o` holds `a.h` once. -/
theorem claim_c2_witness :
    (tableMem [("foo.c", [])] "foo.c" = true ∧
     flatten [("foo.o", ["foo.c"]), ("foo.c", ["a.h", "a.h"]), ("a.h", [])] "foo.o"
       = some (["a.h", "foo.c", "foo.o"], ["foo.c", "a.h"])) ∧
    (lookupGraph (processFile ["#include \"a.h\"".toList, "#include \"a.h\"".toList]
        "foo.c" { table := [("foo.c", [])], workQ := [] }).table "foo.c" =
      lookupGraph [("foo.c", [])] "foo.c" ++
        processLines ["#include \"a.h\"".toList, "#include \"a.h\"".toList] ∧
     (processLines ["#include \"a.h\"".toList, "#include \"a.h\"".toList]).count "a.h" =
       (["#include \"a.h\"".toList, "#include \"a.h\"".toList]).countP
         (fun l => scanLine l == some "a.h") ∧
     (["foo.c", "a.h"] : List String).count "a.h" ≤ 1) := by
  have h1 : tableMem [("foo.c", [])] "foo.c" = true := by decide
  have h2 : flatten [("foo.o", ["foo.c"]), ("foo.c", ["a.h", "a.h"]), ("a.h", [])] "foo.o"
      = some (["a.h", "foo.c", "foo.o"], ["foo.c", "a.h"]) := by decide
  exact ⟨⟨h1, h2⟩, claim_c2_duplicates _ _ _ _ _ _ _ _ h1 h2⟩

/-! Claim C4: lines that are not quoted include directives contribute nothing. -/

lemma scanLine_eq_none {line : List Char}
    (h : (line.dropWhile isCSpace).take 8 ≠ "#include".toList ∨
         (((line.dropWhile isCSpace).drop 8).dropWhile isCSpace).head? ≠ some '"') :
    scanLine line = none := by
  by_cases h8 : (line.dropWhile isCSpace).take 8 = "#include".toList
  · replace h := h.resolve_left (fun hc => hc h8)
    cases hq : ((line.dropWhile isCSpace).drop 8).dropWhile isCSpace with
    | nil => simp [scanLine, h8, hq]
    | cons c rest =>
        have hc : ¬ c = '"' := by
          intro hcc
          apply h
          rw [hq, hcc]
          rfl
        simp [scanLine, h8, hq, hc]
  · simp only [scanLine]
    rw [if_neg h8]

/-- C4: a line that, after leading whitespace, does not begin with the token
`#include`, or whose first character after the token (and more whitespace)
is not a double quote — in particular an angle-bracket system include —
contributes nothing to `process`: the scan of the file behaves exactly as
if the line were absent, so no name is appended to the dependency list, no
graph node is created and no work item is enqueued. -/
theorem claim_c4_nonmatching_line (line : List Char)
    (h : (line.dropWhile isCSpace).take 8 ≠ "#include".toList ∨
         (((line.dropWhile isCSpace).drop 8).dropWhile isCSpace).head? ≠ some '"')
    (pre post : List (List Char)) (file : String) (st : CrawlState) :
    processFile (pre ++ line :: post) file st = processFile (pre ++ post) file st ∧
    scanLine line = none := by
  have hn := scanLine_eq_none h
  refine ⟨?_, hn⟩
  simp [processFile, List.foldl_append, hn]

/-- Witness for C4: the system include line `#include <stdio.h>` is skipped
wholesale. -/
theorem claim_c4_witness :
    ((("#include <stdio.h>".toList.dropWhile isCSpace).take 8 ≠ "#include".toList ∨
      ((("#include <stdio.h>".toList.dropWhile isCSpace).drop 8).dropWhile
          isCSpace).head? ≠ some '"')) ∧
    (processFile ([] ++ "#include <stdio.h>".toList :: ["int x;".toList]) "foo.c"
        { table := [("foo.c", [])], workQ := [] } =
      processFile ([] ++ ["int x;".toList]) "foo.c"
        { table := [("foo.c", [])], workQ := [] } ∧
     scanLine "#include <stdio.h>".toList = none) := by
  have hd : (("#include <stdio.h>".toList.dropWhile isCSpace).take 8 ≠ "#include".toList ∨
      ((("#include <stdio.h>".toList.dropWhile isCSpace).drop 8).dropWhile
          isCSpace).head? ≠ some '"') := by
    right
    decide
  exact ⟨hd, claim_c4_nonmatching_line _ hd [] ["int x;".toList] "foo.c" _⟩

/-! Claim C5: search-path resolution order. -/

lemma openFile_first (contents : Contents) (file : String) :
    ∀ dirs : List String,
    (openFile contents dirs file).map (fun pc => pc.1) =
      (dirs.find? (fun d => (contents (d ++ file)).isSome)).map (fun d => d ++ file) := by
  intro dirs
  induction dirs with
  | nil => simp [openFile]
  | cons d rest ih =>
      cases hc : contents (d ++ file) with
      | none => simp [openFile, hc, List.find?_cons, ih]
      | some c => simp [openFile, hc, List.find?_cons]

lemma openFile_contents (contents : Contents) (file : String) :
    ∀ (dirs : List String) (p : String) (c : List (List Char)),
    openFile contents dirs file = some (p, c) → contents p = some c := by
  intro dirs
  induction dirs with
  | nil => intro p c h; simp [openFile] at h
  | cons d rest ih =>
      intro p c h
      cases hc : contents (d ++ file) with
      | none =>
          rw [openFile, hc] at h
          exact ih p c h
      | some c2 =>
          rw [openFile, hc] at h
          obtain ⟨rfl, rfl⟩ := Prod.mk.injEq .. ▸ Option.some.inj h
          exact hc

/-- C5: `openFile` tries the search directories in order — the current
directory first, then the `-I` directories left to right, then the `CPATH`
fields left to right — and returns the first successful open: the path it
returns is the one built from the first directory whose candidate path
opens (`List.find?`), so when two directories both contain the file, the
earlier one always wins; the content handed back is the opened file's. -/
theorem claim_c5_search_order (contents : Contents) (iflags : List String)
    (cpath : Option String) (file : String) :
    buildDirs iflags cpath =
      (dirName "./" :: iflags.map dirName) ++
        (match cpath with
         | none => []
         | some str => (splitFields str.toList).map String.mk) ∧
    (openFile contents (buildDirs iflags cpath) file).map (fun pc => pc.1) =
      ((buildDirs iflags cpath).find? (fun d => (contents (d ++ file)).isSome)).map
        (fun d => d ++ file) ∧
    (∀ p c, openFile contents (buildDirs iflags cpath) file = some (p, c) →
      contents p = some c) :=
  ⟨rfl, openFile_first contents file _, openFile_contents contents file _⟩

/-- Witness for C5: `x.h` exists both in the current directory and in the
`-I` directory `somedir`; resolution picks the current directory's copy. -/
theorem claim_c5_witness :
    (openFile
        (fun p => if p = "./x.h" then some [['a']]
                  else if p = "somedir/x.h" then some [['b']] else none)
        (buildDirs ["somedir"] none) "x.h" = some ("./x.h", [['a']])) ∧
    (∀ p c, openFile
        (fun p => if p = "./x.h" then some [['a']]
                  else if p = "somedir/x.h" then some [['b']] else none)
        (buildDirs ["somedir"] none) "x.h" = some (p, c) →
      (fun p => if p = "./x.h" then some [['a']]
                else if p = "somedir/x.h" then some [['b']] else none) p = some c) := by
  refine ⟨by decide, ?_⟩
  exact (claim_c5_search_order
    (fun p => if p = "./x.h" then some [['a']]
              else if p = "somedir/x.h" then some [['b']] else none)
    ["somedir"] none "x.h").2.2

/-! Claim C6: the pre-seeding of the table by `main`'s argument loop. -/

lemma lookup_append_absent {g : Graph} {k : String} (v : List String)
    (h : tableMem g k = false) :
    lookupGraph (g ++ [(k, v)]) k = v := by
  induction g with
  | nil => simp [lookupGraph]
  | cons p rest ih =>
      obtain ⟨a, w⟩ := p
      simp only [tableMem, Bool.or_eq_false_iff] at h
      simp [lookupGraph, h.1, ih h.2]

lemma tableMem_insertIfAbsent_mono {g : Graph} {k : String} (k2 : String)
    (v : List String) (h : tableMem g k = true) :
    tableMem (insertIfAbsent g k2 v) k = true := by
  unfold insertIfAbsent
  by_cases h2 : tableMem g k2 = true
  · rw [if_pos h2]; exact h
  · rw [if_neg h2, tableMem_append, h, Bool.true_or]

lemma lookup_insertIfAbsent_pres {g : Graph} {k : String} (k2 : String)
    (v : List String) (h : tableMem g k = true) :
    lookupGraph (insertIfAbsent g k2 v) k = lookupGraph g k := by
  unfold insertIfAbsent
  by_cases h2 : tableMem g k2 = true
  · rw [if_pos h2]
  · rw [if_neg h2]
    exact lookup_append_of_mem _ h

lemma tableMem_insertIfAbsent_other {g : Graph} {k k2 : String}
    (v : List String) (hne : k ≠ k2) :
    tableMem (insertIfAbsent g k2 v) k = tableMem g k := by
  unfold insertIfAbsent
  by_cases h2 : tableMem g k2 = true
  · rw [if_pos h2]
  · rw [if_neg h2, tableMem_append]
    have : tableMem [(k2, v)] k = false := by
      simp [tableMem]
      exact fun hc => absurd hc.symm hne
    rw [this, Bool.or_false]

lemma lookup_insertIfAbsent_new {g : Graph} {k : String} (v : List String)
    (h : tableMem g k = false) :
    lookupGraph (insertIfAbsent g k v) k = v ∧
    tableMem (insertIfAbsent g k v) k = true := by
  unfold insertIfAbsent
  rw [if_neg (by simp [h])]
  refine ⟨lookup_append_absent v h, ?_⟩
  rw [tableMem_append]
  simp [tableMem]

/-- The extension produced by `parseFile` on an object name is always `o`:
the last dot of `r ++ ".o"` is the appended one. -/
lemma parseFile_obj (r : String) : (parseFile (r ++ ".o")).2 = "o" := by
  have hl : (r ++ ".o").toList = r.toList ++ ['.', 'o'] := by simp [String.toList]
  have hmem : '.' ∈ (r ++ ".o").toList := by
    rw [hl]; exact List.mem_append_right _ (by simp)
  have hrev : (r ++ ".o").toList.reverse = 'o' :: '.' :: r.toList.reverse := by
    rw [hl]; simp
  simp only [parseFile, if_pos hmem, hrev]
  rfl

lemma seedArgs_valid : ∀ (args : List String) (st0 st : CrawlState),
    seedArgs args st0 = Except.ok st → ∀ a ∈ args,
    (parseFile a).2 = "c" ∨ (parseFile a).2 = "y" ∨ (parseFile a).2 = "l" := by
  intro args
  induction args with
  | nil => intro st0 st h a ha; simp at ha
  | cons c rest ih =>
      intro st0 st h a ha
      by_cases hc : (parseFile c).2 ≠ "c" ∧ (parseFile c).2 ≠ "y" ∧ (parseFile c).2 ≠ "l"
      · rw [seedArgs, if_pos hc] at h
        exact absurd h (by simp)
      · rw [seedArgs, if_neg hc] at h
        rcases List.mem_cons.mp ha with rfl | ha2
        · tauto
        · exact ih _ _ h a ha2

/-- A name with a valid source extension is never equal to an object name. -/
lemma valid_ne_obj {a r : String}
    (h : (parseFile a).2 = "c" ∨ (parseFile a).2 = "y" ∨ (parseFile a).2 = "l") :
    a ≠ r ++ ".o" := by
  intro hc
  have := parseFile_obj r
  rw [← hc] at this
  rcases h with h | h | h <;> rw [h] at this <;> exact absurd this (by decide)

lemma seedArgs_pres : ∀ (args : List String) (st0 st : CrawlState) (k : String),
    seedArgs args st0 = Except.ok st → tableMem st0.table k = true →
    lookupGraph st.table k = lookupGraph st0.table k ∧ tableMem st.table k = true := by
  intro args
  induction args with
  | nil =>
      intro st0 st k h hm
      simp only [seedArgs, Except.ok.injEq] at h
      subst h
      exact ⟨rfl, hm⟩
  | cons c rest ih =>
      intro st0 st k h hm
      by_cases hc : (parseFile c).2 ≠ "c" ∧ (parseFile c).2 ≠ "y" ∧ (parseFile c).2 ≠ "l"
      · rw [seedArgs, if_pos hc] at h
        exact absurd h (by simp)
      · rw [seedArgs, if_neg hc] at h
        have hm1 : tableMem (insertIfAbsent (insertIfAbsent st0.table
            ((parseFile c).1 ++ ".o") [c]) c []) k = true :=
          tableMem_insertIfAbsent_mono _ _ (tableMem_insertIfAbsent_mono _ _ hm)
        obtain ⟨hl2, hm2⟩ := ih _ _ k h hm1
        refine ⟨?_, hm2⟩
        rw [hl2, lookup_insertIfAbsent_pres _ _
          (tableMem_insertIfAbsent_mono _ _ hm), lookup_insertIfAbsent_pres _ _ hm]

lemma seedArgs_workq_mono : ∀ (args : List String) (st0 st : CrawlState),
    seedArgs args st0 = Except.ok st → ∀ x ∈ st0.workQ, x ∈ st.workQ := by
  intro args
  induction args with
  | nil =>
      intro st0 st h x hx
      simp only [seedArgs, Except.ok.injEq] at h
      subst h
      exact hx
  | cons c rest ih =>
      intro st0 st h x hx
      by_cases hc : (parseFile c).2 ≠ "c" ∧ (parseFile c).2 ≠ "y" ∧ (parseFile c).2 ≠ "l"
      · rw [seedArgs, if_pos hc] at h
        exact absurd h (by simp)
      · rw [seedArgs, if_neg hc] at h
        exact ih _ _ h x (List.mem_append_left _ hx)

lemma seedArgs_core : ∀ (args : List String) (st0 st : CrawlState) (a : String),
    seedArgs args st0 = Except.ok st → a ∈ args →
    (∀ b ∈ args, objOf b = objOf a → b = a) →
    tableMem st0.table (objOf a) = false → tableMem st0.table a = false →
    lookupGraph st.table (objOf a) = [a] ∧ lookupGraph st.table a = [] ∧
    a ∈ st.workQ := by
  intro args
  induction args with
  | nil => intro st0 st a h ha _ _ _; simp at ha
  | cons c rest ih =>
      intro st0 st a h ha huniq hobj habs
      by_cases hc : (parseFile c).2 ≠ "c" ∧ (parseFile c).2 ≠ "y" ∧ (parseFile c).2 ≠ "l"
      · rw [seedArgs, if_pos hc] at h
        exact absurd h (by simp)
      · rw [seedArgs, if_neg hc] at h
        rw [show (parseFile c).1 ++ ".o" = objOf c from rfl] at h
        have hcvalid : (parseFile c).2 = "c" ∨ (parseFile c).2 = "y" ∨
            (parseFile c).2 = "l" := by tauto
        by_cases hac : a = c
        · subst hac
          have hne : a ≠ objOf a := by
            unfold objOf
            exact valid_ne_obj hcvalid
          obtain ⟨hlo, hmo⟩ := lookup_insertIfAbsent_new (g := st0.table) [a] hobj
          have habs1 : tableMem (insertIfAbsent st0.table (objOf a) [a]) a = false := by
            rw [tableMem_insertIfAbsent_other _ hne]
            exact habs
          obtain ⟨hla, hma⟩ := lookup_insertIfAbsent_new
            (g := insertIfAbsent st0.table (objOf a) [a]) ([] : List String) habs1
          have hlo2 : lookupGraph (insertIfAbsent (insertIfAbsent st0.table
              (objOf a) [a]) a []) (objOf a) = [a] := by
            rw [lookup_insertIfAbsent_pres _ _ hmo]
            exact hlo
          have hmo2 : tableMem (insertIfAbsent (insertIfAbsent st0.table
              (objOf a) [a]) a []) (objOf a) = true :=
            tableMem_insertIfAbsent_mono _ _ hmo
          obtain ⟨hp1, _⟩ := seedArgs_pres rest _ st (objOf a) h hmo2
          obtain ⟨hp2, _⟩ := seedArgs_pres rest _ st a h hma
          refine ⟨?_, ?_, ?_⟩
          · rw [hp1, hlo2]
          · rw [hp2, hla]
          · exact seedArgs_workq_mono rest _ st h a (List.mem_append_right _ (by simp))
        · have harest : a ∈ rest := by
            rcases List.mem_cons.mp ha with h1 | h1
            · exact absurd h1 hac
            · exact h1
          have havalid := seedArgs_valid rest _ st h a harest
          have hobjne : objOf a ≠ objOf c :=
            fun hcc => hac (huniq c (List.mem_cons_self _ _) hcc.symm).symm
          have hobja_ne_c : objOf a ≠ c := by
            intro hcc
            exact valid_ne_obj hcvalid (a := c) hcc.symm
          have ha_ne_objc : a ≠ objOf c := by
            unfold objOf
            exact valid_ne_obj havalid
          have hobj1 : tableMem (insertIfAbsent (insertIfAbsent st0.table
              (objOf c) [c]) c []) (objOf a) = false := by
            rw [tableMem_insertIfAbsent_other _ hobja_ne_c,
              tableMem_insertIfAbsent_other _ hobjne]
            exact hobj
          have habs1 : tableMem (insertIfAbsent (insertIfAbsent st0.table
              (objOf c) [c]) c []) a = false := by
            rw [tableMem_insertIfAbsent_other _ hac, tableMem_insertIfAbsent_other _ ha_ne_objc]
            exact habs
          exact ih _ st a h harest
            (fun b hb => huniq b (List.mem_cons_of_mem _ hb)) hobj1 habs1

/-- One step of the `printDependencies` loop in closed form. -/
lemma printDependencies_cons (g : Graph) (fuel : Nat)
    (printed rest out : List String) (name : String) :
    printDependencies g (Nat.succ fuel) printed (name :: rest) out =
    printDependencies g fuel
      ((newDeps (lookupGraph g name) printed).reverse ++ printed)
      (rest ++ newDeps (lookupGraph g name) printed)
      (out ++ newDeps (lookupGraph g name) printed) := by
  simp only [printDependencies, processDeps_eq]

/-- The loop only ever appends to the output accumulator. -/
lemma printDependencies_out_prefix :
    ∀ (fuel : Nat) (g : Graph) (printed tp out pf res : List String),
    printDependencies g fuel printed tp out = some (pf, res) →
    ∃ delta, res = out ++ delta := by
  intro fuel
  induction fuel with
  | zero => intro g printed tp out pf res h; simp [printDependencies] at h
  | succ fuel ih =>
      intro g printed tp out pf res h
      cases tp with
      | nil =>
          simp only [printDependencies, Option.some.injEq, Prod.mk.injEq] at h
          exact ⟨[], by rw [← h.2, List.append_nil]⟩
      | cons name rest =>
          rw [printDependencies_cons] at h
          obtain ⟨d, hd⟩ := ih g _ _ _ _ _ h
          exact ⟨newDeps (lookupGraph g name) printed ++ d, by
            rw [hd, List.append_assoc]⟩

/-- When the root's entry is the one-element list `[a]` with `a ≠ root`, the
flattened output begins with `a`. -/
lemma flatten_head {g : Graph} {root a : String} {pf out : List String}
    (hlook : lookupGraph g root = [a]) (hne : a ≠ root)
    (hf : flatten g root = some (pf, out)) : out.head? = some a := by
  unfold flatten at hf
  rw [show (depsUniverse g).length + 2 = Nat.succ ((depsUniverse g).length + 1)
    from rfl, printDependencies_cons, hlook] at hf
  have hnew : newDeps [a] [root] = [a] := by
    simp [newDeps, hne]
  rw [hnew] at hf
  obtain ⟨d, hd⟩ := printDependencies_out_prefix _ g _ _ _ _ _ hf
  rw [hd]
  rfl

/-- Counterexample to C6 as stated: with arguments `foo.c foo.y`, the second
argument `foo.y` is a valid file argument whose object name is `foo.o`,
yet after seeding the graph maps `foo.o` to `["foo.c"]` — not to a
one-element list containing `foo.y` — because `unordered_map::insert`
leaves the entry created for the earlier argument untouched. -/
theorem claim_c6_counterexample :
    (seedArgs ["foo.c", "foo.y"] { table := [], workQ := [] }).toOption.map
        (fun st => lookupGraph st.table (objOf "foo.y")) = some ["foo.c"] ∧
    objOf "foo.y" = "foo.o" ∧
    ¬ (seedArgs ["foo.c", "foo.y"] { table := [], workQ := [] }).toOption.map
        (fun st => lookupGraph st.table (objOf "foo.y")) = some ["foo.y"] := by
  decide

/-- C6 (amended): for every valid file argument none of whose fellow
arguments shares its object name, before the crawl starts the graph maps
the argument's object name to the one-element list holding the argument,
maps the argument itself to the empty list, and the work queue holds the
argument; and for any graph whose entry for that object name is that
one-element list (as the crawl preserves it), the flattened dependency
list of the target begins with the original source file. -/
theorem claim_c6_seed (args : List String) (st : CrawlState) (a : String)
    (hseed : seedArgs args { table := [], workQ := [] } = Except.ok st)
    (ha : a ∈ args)
    (huniq : ∀ b ∈ args, objOf b = objOf a → b = a) :
    lookupGraph st.table (objOf a) = [a] ∧
    lookupGraph st.table a = [] ∧
    a ∈ st.workQ ∧
    (∀ g pf out, lookupGraph g (objOf a) = [a] →
      flatten g (objOf a) = some (pf, out) → out.head? = some a) := by
  obtain ⟨h1, h2, h3⟩ := seedArgs_core args _ st a hseed ha huniq rfl rfl
  refine ⟨h1, h2, h3, fun g pf out hlook hf => ?_⟩
  have hvalid := seedArgs_valid args _ st hseed a ha
  have hne : a ≠ objOf a := by
    unfold objOf
    exact valid_ne_obj hvalid
  exact flatten_head hlook hne hf

/-- Witness for C6 (amended) at the single argument `foo.c`. -/
theorem claim_c6_witness :
    (seedArgs ["foo.c"] { table := [], workQ := [] } =
       Except.ok { table := [("foo.o", ["foo.c"]), ("foo.c", [])],
                   workQ := ["foo.c"] } ∧
     "foo.c" ∈ ["foo.c"] ∧
     (∀ b ∈ ["foo.c"], objOf b = objOf "foo.c" → b = "foo.c")) ∧
    (lookupGraph [("foo.o", ["foo.c"]), ("foo.c", [])] (objOf "foo.c") = ["foo.c"] ∧
     lookupGraph [("foo.o", ["foo.c"]), ("foo.c", [])] "foo.c" = [] ∧
     "foo.c" ∈ (["foo.c"] : List String) ∧
     (∀ g pf out, lookupGraph g (objOf "foo.c") = ["foo.c"] →
       flatten g (objOf "foo.c") = some (pf, out) → out.head? = some "foo.c")) := by
  have hseed : seedArgs ["foo.c"] { table := [], workQ := [] } =
      Except.ok { table := [("foo.o", ["foo.c"]), ("foo.c", [])],
                  workQ := ["foo.c"] } := by rfl
  have ha : "foo.c" ∈ ["foo.c"] := by decide
  have huniq : ∀ b ∈ ["foo.c"], objOf b = objOf "foo.c" → b = "foo.c" := by decide
  exact ⟨⟨hseed, ha, huniq⟩, claim_c6_seed ["foo.c"] _ "foo.c" hseed ha huniq⟩

/-! Claim C7: unresolvable files are fatal. -/

lemma process_error (contents : Contents) (dirs : List String) (file : String)
    (hopen : openFile contents dirs file = none) (st : CrawlState) :
    process contents dirs file st = Except.error ("Error opening " ++ file, -1) := by
  unfold process
  rw [hopen]

/-- C7: whenever a file name — given on the command line or discovered as an
include, hence at the front of the work queue when its turn comes — cannot
be opened through any directory of the search path, the program stops at
once with the message `Error opening <file>` and the non-zero status `-1`:
`process` returns exactly that error, the crawl loop propagates it, and
the whole program returns it, producing no dependency output for any
target. -/
theorem claim_c7_unresolved_fatal (contents : Contents) (dirs : List String)
    (file : String) (st : CrawlState) (fuel : Nat)
    (hopen : openFile contents dirs file = none)
    (hhead : st.workQ.head? = some file) :
    process contents dirs file st = Except.error ("Error opening " ++ file, -1) ∧
    crawl contents dirs (fuel + 1) st = Except.error ("Error opening " ++ file, -1) ∧
    (∀ (iflags : List String) (cpath : Option String) (args : List String),
      buildDirs iflags cpath = dirs →
      seedArgs args { table := [], workQ := [] } = Except.ok st →
      runProgram contents iflags cpath (fuel + 1) args =
        Except.error ("Error opening " ++ file, -1)) ∧
    (-1 : Int) ≠ 0 := by
  obtain ⟨f, rest, hq⟩ : ∃ f rest, st.workQ = f :: rest := by
    cases hw : st.workQ with
    | nil => rw [hw] at hhead; exact absurd hhead (by simp)
    | cons f rest => exact ⟨f, rest, rfl⟩
  have hfile : f = file := by
    rw [hq] at hhead
    exact Option.some.inj hhead
  subst hfile
  have hcrawl : crawl contents dirs (fuel + 1) st =
      Except.error ("Error opening " ++ f, -1) := by
    have hstep : crawl contents dirs (fuel + 1) st =
        match process contents dirs f
            { table := insertIfAbsent st.table f [], workQ := rest } with
        | Except.error e => Except.error e
        | Except.ok st2 => crawl contents dirs fuel st2 := by
      rw [show fuel + 1 = Nat.succ fuel from rfl, crawl, hq]
    rw [hstep, process_error contents dirs f hopen]
  refine ⟨process_error contents dirs f hopen st, hcrawl, ?_, by decide⟩
  intro iflags cpath args hdirs hseed
  simp only [runProgram, hseed, hdirs, hcrawl]

/-- Witness for C7: `foo.c` is enqueued but exists nowhere on the search
path. -/
theorem claim_c7_witness :
    (openFile (fun _ => none) (buildDirs [] none) "foo.c" = none ∧
     ({ table := [("foo.o", ["foo.c"]), ("foo.c", [])],
        workQ := ["foo.c"] } : CrawlState).workQ.head? = some "foo.c") ∧
    (process (fun _ => none) (buildDirs [] none) "foo.c"
        { table := [("foo.o", ["foo.c"]), ("foo.c", [])], workQ := ["foo.c"] } =
      Except.error ("Error opening " ++ "foo.c", -1) ∧
     crawl (fun _ => none) (buildDirs [] none) (3 + 1)
        { table := [("foo.o", ["foo.c"]), ("foo.c", [])], workQ := ["foo.c"] } =
      Except.error ("Error opening " ++ "foo.c", -1) ∧
     (∀ (iflags : List String) (cpath : Option String) (args : List String),
        buildDirs iflags cpath = buildDirs [] none →
        seedArgs args { table := [], workQ := [] } =
          Except.ok ({ table := [("foo.o", ["foo.c"]), ("foo.c", [])],
                       workQ := ["foo.c"] } : CrawlState) →
        runProgram (fun _ => none) iflags cpath (3 + 1) args =
          Except.error ("Error opening " ++ "foo.c", -1)) ∧
     (-1 : Int) ≠ 0) := by
  have h1 : openFile (fun _ => none) (buildDirs [] none) "foo.c" = none := by rfl
  have h2 : ({ table := [("foo.o", ["foo.c"]), ("foo.c", [])],
               workQ := ["foo.c"] } : CrawlState).workQ.head? = some "foo.c" := by
    rfl
  exact ⟨⟨h1, h2⟩, claim_c7_unresolved_fatal (fun _ => none) (buildDirs [] none)
    "foo.c" _ 3 h1 h2⟩

/-! Claim C8: invalid extensions are rejected before any scanning. -/

lemma seedArgs_illegal (a : String)
    (hbad : (parseFile a).2 ≠ "c" ∧ (parseFile a).2 ≠ "y" ∧ (parseFile a).2 ≠ "l") :
    ∀ (pre : List String),
    (∀ b ∈ pre, (parseFile b).2 = "c" ∨ (parseFile b).2 = "y" ∨ (parseFile b).2 = "l") →
    ∀ (post : List String) (st0 : CrawlState),
    seedArgs (pre ++ a :: post) st0 =
      Except.error ("Illegal extension: " ++ (parseFile a).2 ++
        " - must be .c, .y or .l", -1) := by
  intro pre
  induction pre with
  | nil =>
      intro _ post st0
      rw [List.nil_append, seedArgs, if_pos hbad]
  | cons b pre' ih =>
      intro hvalid post st0
      have hb : ¬ ((parseFile b).2 ≠ "c" ∧ (parseFile b).2 ≠ "y" ∧
          (parseFile b).2 ≠ "l") := by
        have := hvalid b (List.mem_cons_self _ _)
        tauto
      rw [List.cons_append, seedArgs, if_neg hb]
      exact ih (fun x hx => hvalid x (List.mem_cons_of_mem _ hx)) post _

/-- C8: a command-line file argument whose extension is not exactly `c`,
`y` or `l` — with all earlier arguments valid, so it is the one the loop
trips over — makes the program emit
`Illegal extension: <ext> - must be .c, .y or .l` and return the non-zero
status `-1` before any scanning starts: the result is the same for every
file system, and no output is produced. -/
theorem claim_c8_illegal_extension (pre post : List String) (a : String)
    (hvalid : ∀ b ∈ pre, (parseFile b).2 = "c" ∨ (parseFile b).2 = "y" ∨
      (parseFile b).2 = "l")
    (hbad : (parseFile a).2 ≠ "c" ∧ (parseFile a).2 ≠ "y" ∧ (parseFile a).2 ≠ "l") :
    (∀ st0 : CrawlState, seedArgs (pre ++ a :: post) st0 =
      Except.error ("Illegal extension: " ++ (parseFile a).2 ++
        " - must be .c, .y or .l", -1)) ∧
    (∀ (contents : Contents) (iflags : List String) (cpath : Option String)
        (fuel : Nat),
      runProgram contents iflags cpath fuel (pre ++ a :: post) =
        Except.error ("Illegal extension: " ++ (parseFile a).2 ++
          " - must be .c, .y or .l", -1)) ∧
    (-1 : Int) ≠ 0 := by
  have hseed := seedArgs_illegal a hbad pre hvalid post
  refine ⟨fun st0 => hseed st0, fun contents iflags cpath fuel => ?_, by decide⟩
  unfold runProgram
  rw [hseed { table := [], workQ := [] }]

/-- Witness for C8 at the single argument `foo.txt`. -/
theorem claim_c8_witness :
    ((∀ b ∈ ([] : List String), (parseFile b).2 = "c" ∨ (parseFile b).2 = "y" ∨
        (parseFile b).2 = "l") ∧
     ((parseFile "foo.txt").2 ≠ "c" ∧ (parseFile "foo.txt").2 ≠ "y" ∧
        (parseFile "foo.txt").2 ≠ "l")) ∧
    ((∀ st0 : CrawlState, seedArgs ([] ++ "foo.txt" :: []) st0 =
        Except.error ("Illegal extension: " ++ (parseFile "foo.txt").2 ++
          " - must be .c, .y or .l", -1)) ∧
     (∀ (contents : Contents) (iflags : List String) (cpath : Option String)
         (fuel : Nat),
       runProgram contents iflags cpath fuel ([] ++ "foo.txt" :: []) =
         Except.error ("Illegal extension: " ++ (parseFile "foo.txt").2 ++
           " - must be .c, .y or .l", -1)) ∧
     (-1 : Int) ≠ 0) := by
  have h1 : ∀ b ∈ ([] : List String), (parseFile b).2 = "c" ∨
      (parseFile b).2 = "y" ∨ (parseFile b).2 = "l" := by simp
  have h2 : (parseFile "foo.txt").2 ≠ "c" ∧ (parseFile "foo.txt").2 ≠ "y" ∧
      (parseFile "foo.txt").2 ≠ "l" := by decide
  exact ⟨⟨h1, h2⟩, claim_c8_illegal_extension [] [] "foo.txt" h1 h2⟩

/-! Claim C9: the worker-count environment variable. -/

/-- Counterexample to C9 as stated: on the invalid numeric text `abc`,
`std::stoi` throws (`stoi "abc" = none` models the uncaught
`std::invalid_argument`), so the worker count does not fall back to the
default 2 — the program terminates instead. -/
theorem claim_c9_counterexample :
    crawlerThreadCount (some "abc") = none ∧
    ¬ crawlerThreadCount (some "abc") = some 2 := by
  decide

/-- C9 (amended): when the worker-count variable is absent the pool size is
the default 2; when it is present but does not contain valid integer text,
`std::stoi` throws an uncaught exception and the program terminates — there
is no fallback to the default; valid text yields its parsed value. -/
theorem claim_c9_thread_count :
    crawlerThreadCount none = some 2 ∧
    (∀ s, stoi s = none → crawlerThreadCount (some s) = none) ∧
    (∀ s n, stoi s = some n → crawlerThreadCount (some s) = some n) :=
  ⟨rfl, fun _ h => h, fun _ _ h => h⟩

/-- Witness for C9 (amended) at `abc` (invalid) and `3` (valid). -/
theorem claim_c9_witness :
    (stoi "abc" = none ∧ stoi "3" = some 3) ∧
    (crawlerThreadCount none = some 2 ∧
     crawlerThreadCount (some "abc") = none ∧
     crawlerThreadCount (some "3") = some 3) :=
  ⟨⟨by decide, by decide⟩,
   ⟨claim_c9_thread_count.1,
    claim_c9_thread_count.2.1 "abc" (by decide),
    claim_c9_thread_count.2.2 "3" 3 (by decide)⟩⟩

/-! Claim C10: the empty-queue branch of `pop_front` is unreachable. -/

lemma pop_front_none {q : List String} (h : pop_front q = none) : q = [] := by
  cases q with
  | nil => rfl
  | cons x r => simp [pop_front] at h

lemma get?_set_cases {α : Type} :
    ∀ (l : List α) (i j : Nat) (a b : α),
    (l.set i a).get? j = some b → b = a ∨ l.get? j = some b := by
  intro l
  induction l with
  | nil => intro i j a b h; simp at h
  | cons x xs ih =>
      intro i j a b h
      cases i with
      | zero =>
          cases j with
          | zero => exact Or.inl (Option.some.inj h).symm
          | succ j => exact Or.inr h
      | succ i =>
          cases j with
          | zero => exact Or.inr h
          | succ j => exact ih i j a b h

lemma get?_set_self {α : Type} :
    ∀ (l : List α) (i : Nat) (a : α), (∃ b, l.get? i = some b) →
    (l.set i a).get? i = some a := by
  intro l
  induction l with
  | nil =>
      intro i a hb
      obtain ⟨b, hb⟩ := hb
      simp at hb
  | cons x xs ih =>
      intro i a hb
      cases i with
      | zero => rfl
      | succ i =>
          obtain ⟨b, hb⟩ := hb
          exact ih i a ⟨b, hb⟩

lemma countP_set {α : Type} (p : α → Bool) :
    ∀ (l : List α) (i : Nat) (a b : α), l.get? i = some b →
    (l.set i a).countP p + (if p b then 1 else 0) =
      l.countP p + (if p a then 1 else 0) := by
  intro l
  induction l with
  | nil => intro i a b h; simp at h
  | cons x xs ih =>
      intro i a b h
      cases i with
      | zero =>
          have hx : x = b := Option.some.inj h
          subst hx
          simp only [List.set, List.countP_cons]
          omega
      | succ i =>
          simp only [List.get?] at h
          simp only [List.set, List.countP_cons]
          have := ih i a b h
          omega

lemma two_le_countP {α : Type} (p : α → Bool) :
    ∀ (l : List α) (i j : Nat) (x y : α),
    i ≠ j → l.get? i = some x → l.get? j = some y → p x = true → p y = true →
    2 ≤ l.countP p := by
  intro l
  induction l with
  | nil => intro i j x y _ hx _ _ _; simp at hx
  | cons c cs ih =>
      intro i j x y hij hx hy hpx hpy
      cases i with
      | zero =>
          cases j with
          | zero => exact absurd rfl hij
          | succ j =>
              have hcx : c = x := Option.some.inj hx
              simp only [List.get?] at hy
              have hymem : y ∈ cs := List.get?_mem hy
              have h1 : 0 < cs.countP p := List.countP_pos_iff.mpr ⟨y, hymem, hpy⟩
              subst hcx
              rw [List.countP_cons, hpx]
              simp only [if_true]
              omega
      | succ i =>
          cases j with
          | zero =>
              have hcy : c = y := Option.some.inj hy
              simp only [List.get?] at hx
              have hxmem : x ∈ cs := List.get?_mem hx
              have h1 : 0 < cs.countP p := List.countP_pos_iff.mpr ⟨x, hxmem, hpx⟩
              subst hcy
              rw [List.countP_cons, hpy]
              simp only [if_true]
              omega
          | succ j =>
              simp only [List.get?] at hx hy
              have := ih i j x y (fun hc => hij (by rw [hc])) hx hy hpx hpy
              rw [List.countP_cons]
              omega

lemma poolInv_init (n : Nat) (q0 : List String) : PoolInv (poolInit n q0) := by
  refine ⟨?_, ?_, ?_⟩
  · have : (List.replicate n WorkerPc.acquire).countP (fun pc => holdsLock pc) = 0 := by
      rw [List.countP_eq_zero]
      intro a ha
      rw [List.eq_of_mem_replicate ha]
      simp [holdsLock]
    simp [poolInit, this]
  · intro i h
    have hmem := List.get?_mem h
    have heq := List.eq_of_mem_replicate hmem
    exact absurd heq (by decide)
  · intro i h
    have hmem := List.get?_mem h
    have heq := List.eq_of_mem_replicate hmem
    exact absurd heq (by decide)

lemma get?_set_other {α : Type} :
    ∀ (l : List α) (i j : Nat) (a : α), i ≠ j →
    (l.set i a).get? j = l.get? j := by
  intro l
  induction l with
  | nil => intro i j a _; rfl
  | cons x xs ih =>
      intro i j a hij
      cases i with
      | zero =>
          cases j with
          | zero => exact absurd rfl hij
          | succ j => rfl
      | succ i =>
          cases j with
          | zero => rfl
          | succ j => exact ih i j a (fun hc => hij (by rw [hc]))

lemma popping_pres {pcs : List WorkerPc} {q q' : List String} {i : Nat}
    (newPc : WorkerPc) (hnp : newPc ≠ WorkerPc.popping)
    (hq : q ≠ [] → q' ≠ [])
    (hpop : ∀ j, pcs.get? j = some WorkerPc.popping → q ≠ []) :
    ∀ j, (pcs.set i newPc).get? j = some WorkerPc.popping → q' ≠ [] := by
  intro j hj
  rcases get?_set_cases _ _ _ _ _ hj with h1 | h1
  · exact absurd h1.symm hnp
  · exact hq (hpop j h1)

lemma null_pres {pcs : List WorkerPc} {i : Nat}
    (newPc : WorkerPc) (hnn : newPc ≠ WorkerPc.nullString)
    (hnull : ∀ j, pcs.get? j ≠ some WorkerPc.nullString) :
    ∀ j, (pcs.set i newPc).get? j ≠ some WorkerPc.nullString := by
  intro j hj
  rcases get?_set_cases _ _ _ _ _ hj with h1 | h1
  · exact hnn h1.symm
  · exact hnull j h1

lemma countP_set_incr {α : Type} (p : α → Bool) (l : List α) (i : Nat) (a b : α)
    (h : l.get? i = some b) (hpa : p a = true) (hpb : p b = false) :
    (l.set i a).countP p = l.countP p + 1 := by
  have hc := countP_set p l i a b h
  rw [hpa, hpb] at hc
  simp at hc
  omega

lemma countP_set_decr {α : Type} (p : α → Bool) (l : List α) (i : Nat) (a b : α)
    (h : l.get? i = some b) (hpa : p a = false) (hpb : p b = true) :
    (l.set i a).countP p + 1 = l.countP p := by
  have hc := countP_set p l i a b h
  rw [hpa, hpb] at hc
  simp at hc
  omega

lemma countP_set_same {α : Type} (p : α → Bool) (l : List α) (i : Nat) (a b : α)
    (h : l.get? i = some b) (hpab : p a = p b) :
    (l.set i a).countP p = l.countP p := by
  have hc := countP_set p l i a b h
  rw [hpab] at hc
  omega

lemma poolInv_step {s s' : PoolState} (h : PoolStep s s') (hinv : PoolInv s) :
    PoolInv s' := by
  obtain ⟨hsum, hpop, hnull⟩ := hinv
  cases h with
  | acquireStep i q pcs hi =>
      simp only [PoolInv] at hsum hpop hnull ⊢
      have hcnt := countP_set_incr (fun pc => holdsLock pc) pcs i
        WorkerPc.test WorkerPc.acquire hi rfl rfl
      refine ⟨by omega,
        popping_pres WorkerPc.test (by decide) id hpop,
        null_pres WorkerPc.test (by decide) hnull⟩
  | testPos i sem q pcs hi hq =>
      simp only [PoolInv] at hsum hpop hnull ⊢
      have hcnt := countP_set_same (fun pc => holdsLock pc) pcs i
        WorkerPc.popping WorkerPc.test hi rfl
      refine ⟨by omega, ?_, null_pres WorkerPc.popping (by decide) hnull⟩
      intro j hj
      by_cases hij : i = j
      · exact hq
      · rw [get?_set_other _ _ _ _ hij] at hj
        exact hpop j hj
  | testEmpty i sem pcs hi =>
      simp only [PoolInv] at hsum hpop hnull ⊢
      have hcnt := countP_set_same (fun pc => holdsLock pc) pcs i
        WorkerPc.exiting WorkerPc.test hi rfl
      refine ⟨by omega,
        popping_pres WorkerPc.exiting (by decide) id hpop,
        null_pres WorkerPc.exiting (by decide) hnull⟩
  | popOk i sem q rest x pcs hi hpf =>
      simp only [PoolInv] at hsum hpop hnull ⊢
      have hcnt := countP_set_same (fun pc => holdsLock pc) pcs i
        WorkerPc.release WorkerPc.popping hi rfl
      refine ⟨by omega, ?_, null_pres WorkerPc.release (by decide) hnull⟩
      intro j hj
      by_cases hij : i = j
      · subst hij
        rw [get?_set_self pcs i WorkerPc.release ⟨_, hi⟩] at hj
        exact absurd (Option.some.inj hj) (by decide)
      · rw [get?_set_other _ _ _ _ hij] at hj
        have h2 := two_le_countP (fun pc => holdsLock pc) pcs i j
          WorkerPc.popping WorkerPc.popping hij hi hj (by decide) (by decide)
        omega
  | popNull i sem q pcs hi hpf =>
      exact absurd (pop_front_none hpf) (hpop i hi)
  | releaseStep i q pcs hi =>
      simp only [PoolInv] at hsum hpop hnull ⊢
      have hcnt := countP_set_decr (fun pc => holdsLock pc) pcs i
        WorkerPc.working WorkerPc.release hi rfl rfl
      refine ⟨by omega,
        popping_pres WorkerPc.working (by decide) id hpop,
        null_pres WorkerPc.working (by decide) hnull⟩
  | exitStep i q pcs hi =>
      simp only [PoolInv] at hsum hpop hnull ⊢
      have hcnt := countP_set_decr (fun pc => holdsLock pc) pcs i
        WorkerPc.done WorkerPc.exiting hi rfl rfl
      refine ⟨by omega,
        popping_pres WorkerPc.done (by decide) id hpop,
        null_pres WorkerPc.done (by decide) hnull⟩
  | pushStep i sem q x pcs hi =>
      simp only [PoolInv] at hsum hpop hnull ⊢
      refine ⟨hsum, fun j hj => by simp, hnull⟩
  | loopStep i sem q pcs hi =>
      simp only [PoolInv] at hsum hpop hnull ⊢
      have hcnt := countP_set_same (fun pc => holdsLock pc) pcs i
        WorkerPc.acquire WorkerPc.working hi rfl
      refine ⟨by omega,
        popping_pres WorkerPc.acquire (by decide) id hpop,
        null_pres WorkerPc.acquire (by decide) hnull⟩

/-- C10: in every state the crawler pool can reach, under any interleaving,
a worker about to call `pop_front` (having observed `size() > 0` while
holding the pool semaphore, which it releases only after popping) sees a
non-empty queue — `pop_front` succeeds — and no worker ever enters the
empty-queue branch that would construct a `std::string` from `NULL`. -/
theorem claim_c10_pop_nonempty (n : Nat) (q0 : List String) (s : PoolState)
    (h : PoolReachable n q0 s) :
    (∀ i, s.pcs.get? i = some WorkerPc.popping → (pop_front s.q).isSome = true) ∧
    (∀ i, s.pcs.get? i ≠ some WorkerPc.nullString) := by
  have hinv : PoolInv s := by
    induction h with
    | refl => exact poolInv_init n q0
    | tail hsteps hstep ih => exact poolInv_step hstep ih
  obtain ⟨_, hpop, hnull⟩ := hinv
  refine ⟨fun i hi => ?_, hnull⟩
  have hne := hpop i hi
  cases hq : s.q with
  | nil => exact absurd hq hne
  | cons x r => rfl

/-- Witness for C10 at the initial state of a two-worker pool over a seeded
queue. -/
theorem claim_c10_witness :
    PoolReachable 2 ["foo.c"] (poolInit 2 ["foo.c"]) ∧
    ((∀ i, (poolInit 2 ["foo.c"]).pcs.get? i = some WorkerPc.popping →
        (pop_front (poolInit 2 ["foo.c"]).q).isSome = true) ∧
     (∀ i, (poolInit 2 ["foo.c"]).pcs.get? i ≠ some WorkerPc.nullString)) :=
  ⟨Relation.ReflTransGen.refl,
   claim_c10_pop_nonempty 2 ["foo.c"] (poolInit 2 ["foo.c"])
     Relation.ReflTransGen.refl⟩

end DependencyDiscoverer
